import Mathlib

/-!
# Verification of the SlimeVR per-tracker reset / mounting-calibration engine

This file embeds, in Lean, the calibration engine exercised by
`MountingResetTests` (the tracker reset/mounting test suite of the
repository) together with the angle helpers defined inside that test file
(`posRad`, `yaw`, `anglesApproxEqual`), and proves the testable properties
of the specification about them.

The test file itself is part of the repository sources; the engine it
exercises (`TrackerResetsHandler` with its operations `resetFull`,
`resetYaw`, `resetMounting`, the stored correction quaternions and the
corrected-output function) and the quaternion library helpers
(`toEulerAngles`, `FastMath.isApproxEqual`, the eight `SLIMEVR` canonical
directions) are not among the provided sources, so they are modelled from
the specification; each such definition carries a doc comment starting
with `Modelled from the spec:`.

Floating-point numbers are modelled by real numbers; the JVM `%` operator
on floats (truncated-toward-zero remainder, exact on floats) is modelled
by an exact truncated remainder on ℝ.
-/

open Real

noncomputable section

/-- Truncation toward zero, the rounding used by the JVM `%` operator on
floats: floor for nonnegative arguments, ceiling for negative ones. -/
def rtrunc (x : ℝ) : ℤ := if 0 ≤ x then ⌊x⌋ else ⌈x⌉

/-- The JVM `%` remainder on reals: `a - b * trunc (a / b)`; it has the
sign of the dividend `a` and magnitude smaller than `|b|`. -/
def jrem (a b : ℝ) : ℝ := a - b * rtrunc (a / b)

/-- `posRad` from `MountingResetTests`: "Makes a radian angle positive".
`val redRot = rot % FastMath.TWO_PI; return abs(if (rot < 0f) TWO_PI + redRot else redRot)`. -/
def posRad (rot : ℝ) : ℝ :=
  let redRot := jrem rot (2 * π)
  |if rot < 0 then 2 * π + redRot else redRot|

/-- Modelled from the spec: `FastMath.isApproxEqual` (not among the
provided sources) compares two floats for approximate equality; the spec
fixes the angular tolerance at 1e-3 rad and requires `2π − 0.0005` and
`0.0005` to compare approximately equal, so the comparison is
`|a − b| ≤ 1e-3`. -/
def isApproxEqual (a b : ℝ) : Prop := |a - b| ≤ 1e-3

/-- `anglesApproxEqual` from `MountingResetTests`: wraparound-aware
approximate equality of angles via the three checks
`a ≈ b`, `a − 2π ≈ b`, `a ≈ b − 2π`. -/
def anglesApproxEqual (a b : ℝ) : Prop :=
  isApproxEqual a b ∨ isApproxEqual (a - 2 * π) b ∨ isApproxEqual a (b - 2 * π)

theorem posRad_of_nonneg {r : ℝ} (h : 0 ≤ r) :
    posRad r = 2 * π * Int.fract (r / (2 * π)) := by
  have h2 := Real.two_pi_pos
  have hq : 0 ≤ r / (2 * π) := div_nonneg h h2.le
  have hfr : 0 ≤ 2 * π * Int.fract (r / (2 * π)) :=
    mul_nonneg h2.le (Int.fract_nonneg _)
  have hval : jrem r (2 * π) = 2 * π * Int.fract (r / (2 * π)) := by
    unfold jrem rtrunc
    rw [if_pos hq, Int.fract]
    field_simp
  simp only [posRad]
  rw [if_neg (not_lt.2 h), hval, abs_of_nonneg hfr]

theorem posRad_of_neg {r : ℝ} (h : r < 0) :
    posRad r = 2 * π * (1 - Int.fract (-r / (2 * π))) := by
  have h2 := Real.two_pi_pos
  have hq : r / (2 * π) < 0 := div_neg_of_neg_of_pos h h2
  have hfr : 0 ≤ 2 * π * (1 - Int.fract (-r / (2 * π))) :=
    mul_nonneg h2.le (by linarith [Int.fract_lt_one (-r / (2 * π))])
  have hval : jrem r (2 * π) = 2 * π * (1 - Int.fract (-r / (2 * π))) - 2 * π := by
    unfold jrem rtrunc
    rw [if_neg (not_le.2 hq), Int.fract]
    have hc : (⌈r / (2 * π)⌉ : ℝ) = -(⌊-r / (2 * π)⌋ : ℝ) := by
      rw [show -r / (2 * π) = -(r / (2 * π)) by ring, Int.floor_neg]
      push_cast
      ring
    rw [hc]
    field_simp
    ring
  simp only [posRad]
  rw [if_pos h, hval, show 2 * π + (2 * π * (1 - Int.fract (-r / (2 * π))) - 2 * π) =
    2 * π * (1 - Int.fract (-r / (2 * π))) by ring, abs_of_nonneg hfr]

theorem posRad_nonneg (r : ℝ) : 0 ≤ posRad r := abs_nonneg _

theorem posRad_le_two_pi (r : ℝ) : posRad r ≤ 2 * π := by
  have h2 := Real.two_pi_pos
  rcases lt_or_le r 0 with h | h
  · rw [posRad_of_neg h]
    nlinarith [Int.fract_nonneg (-r / (2 * π))]
  · rw [posRad_of_nonneg h]
    nlinarith [Int.fract_lt_one (r / (2 * π))]

theorem posRad_lt_two_pi_of_nonneg {r : ℝ} (h : 0 ≤ r) : posRad r < 2 * π := by
  have h2 := Real.two_pi_pos
  rw [posRad_of_nonneg h]
  nlinarith [Int.fract_lt_one (r / (2 * π))]

theorem posRad_lt_two_pi_of_ne {r : ℝ} (h : ∀ k : ℤ, r ≠ 2 * π * k) :
    posRad r < 2 * π := by
  have h2 := Real.two_pi_pos
  rcases lt_or_le r 0 with hneg | hpos
  · rw [posRad_of_neg hneg]
    have hfr : 0 < Int.fract (-r / (2 * π)) := by
      rcases (Int.fract_nonneg (-r / (2 * π))).lt_or_eq with hlt | heq
      · exact hlt
      · exfalso
        have hfl : -r / (2 * π) = (⌊-r / (2 * π)⌋ : ℝ) := by
          unfold Int.fract at heq
          linarith
        apply h (-⌊-r / (2 * π)⌋)
        have : -r = 2 * π * (⌊-r / (2 * π)⌋ : ℝ) := by
          field_simp at hfl
          linarith
        push_cast
        linarith
    nlinarith
  · exact posRad_lt_two_pi_of_nonneg hpos

theorem posRad_coe_angle (r : ℝ) : ((posRad r : ℝ) : Real.Angle) = (r : Real.Angle) := by
  rw [Real.Angle.angle_eq_iff_two_pi_dvd_sub]
  have h2 := Real.two_pi_pos
  rcases lt_or_le r 0 with h | h
  · refine ⟨1 + ⌊-r / (2 * π)⌋, ?_⟩
    rw [posRad_of_neg h]
    unfold Int.fract
    push_cast
    field_simp
    ring
  · refine ⟨-⌊r / (2 * π)⌋, ?_⟩
    rw [posRad_of_nonneg h]
    unfold Int.fract
    push_cast
    field_simp

theorem posRad_eq_self {r : ℝ} (h0 : 0 ≤ r) (h1 : r < 2 * π) : posRad r = r := by
  have h2 := Real.two_pi_pos
  rw [posRad_of_nonneg h0]
  have hfr : Int.fract (r / (2 * π)) = r / (2 * π) := by
    rw [Int.fract_eq_self]
    constructor
    · exact div_nonneg h0 h2.le
    · rw [div_lt_one h2]
      exact h1
  rw [hfr]
  field_simp

theorem posRad_zero : posRad 0 = 0 := by
  rw [posRad_eq_self le_rfl Real.two_pi_pos]

theorem posRad_eq_add_of_neg {r : ℝ} (h0 : -(2 * π) < r) (h1 : r < 0) :
    posRad r = 2 * π + r := by
  have h2 := Real.two_pi_pos
  rw [posRad_of_neg h1]
  have hfr : Int.fract (-r / (2 * π)) = -r / (2 * π) := by
    rw [Int.fract_eq_self]
    constructor
    · exact div_nonneg (by linarith) h2.le
    · rw [div_lt_one h2]
      linarith
  rw [hfr]
  field_simp

/-- Two angles, both lying in the closed interval `[0, 2π]`, that are equal
modulo `2π` are judged equal by the wraparound-aware comparison. -/
theorem anglesApproxEqual_of_angle_eq {a b : ℝ} (ha0 : 0 ≤ a) (ha1 : a ≤ 2 * π)
    (hb0 : 0 ≤ b) (hb1 : b ≤ 2 * π) (h : (a : Real.Angle) = (b : Real.Angle)) :
    anglesApproxEqual a b := by
  obtain ⟨k, hk⟩ := Real.Angle.angle_eq_iff_two_pi_dvd_sub.1 h
  have h2 := Real.two_pi_pos
  have hk1 : (k : ℝ) ≤ 1 := by nlinarith
  have hk2 : (-1 : ℝ) ≤ (k : ℝ) := by nlinarith
  have hk1' : k ≤ 1 := by exact_mod_cast hk1
  have hk2' : (-1 : ℤ) ≤ k := by exact_mod_cast hk2
  interval_cases k
  · right; right
    have : a - (b - 2 * π) = 0 := by push_cast at hk; linarith
    unfold isApproxEqual
    rw [this]
    norm_num
  · left
    have : a - b = 0 := by push_cast at hk; linarith
    unfold isApproxEqual
    rw [this]
    norm_num
  · right; left
    have : a - 2 * π - b = 0 := by push_cast at hk; linarith
    unfold isApproxEqual
    rw [this]
    norm_num

/-- C5: the wraparound-aware comparison judges `0.001` and `2π − 0.001`
unequal — their effective distance is `0.002`, not `2π − 0.002` — and
judges `2π − 0.0005` and `0.0005` approximately equal. -/
theorem anglesApproxEqual_wraparound_cases :
    ¬ anglesApproxEqual (0.001 : ℝ) (2 * π - 0.001) ∧
    anglesApproxEqual (2 * π - 0.0005 : ℝ) 0.0005 ∧
    |(0.001 : ℝ) - ((2 * π - 0.001) - 2 * π)| = 0.002 := by
  have hpi := Real.pi_gt_three
  refine ⟨?_, ?_, ?_⟩
  · rintro (h | h | h) <;>
      unfold isApproxEqual at h <;>
      obtain ⟨h1, h2⟩ := abs_le.1 h <;>
      nlinarith
  · right; left
    unfold isApproxEqual
    have : 2 * π - 0.0005 - 2 * π - 0.0005 = -(0.001) := by ring
    rw [this, abs_neg, abs_of_nonneg (by norm_num)]
  · have : (0.001 : ℝ) - ((2 * π - 0.001) - 2 * π) = 0.002 := by ring
    rw [this, abs_of_nonneg (by norm_num)]

/-- C10: the wraparound-aware comparison is symmetric. -/
theorem anglesApproxEqual_symm (a b : ℝ) :
    anglesApproxEqual a b ↔ anglesApproxEqual b a := by
  have key : ∀ x y : ℝ, anglesApproxEqual x y → anglesApproxEqual y x := by
    intro x y hxy
    rcases hxy with h | h | h
    · left
      unfold isApproxEqual at h ⊢
      rwa [abs_sub_comm]
    · right; right
      unfold isApproxEqual at h ⊢
      rwa [abs_sub_comm]
    · right; left
      unfold isApproxEqual at h ⊢
      rwa [abs_sub_comm]
  exact ⟨key a b, key b a⟩

/-- C6 counterexample: at the input `−2π` (a negative integer multiple of
`2π`), `posRad` returns exactly `2π`, which is outside `[0, 2π)`. -/
theorem posRad_neg_two_pi_out_of_range :
    posRad (-(2 * π)) = 2 * π ∧ ¬ posRad (-(2 * π)) < 2 * π := by
  have h2 := Real.two_pi_pos
  have heval : posRad (-(2 * π)) = 2 * π := by
    rw [posRad_of_neg (by linarith)]
    have : -(-(2 * π)) / (2 * π) = 1 := by field_simp
    rw [this, Int.fract_one]
    ring
  exact ⟨heval, by rw [heval]; exact lt_irrefl _⟩

/-! ## Quaternions, yaw extraction and the canonical directions -/

/-- Real quaternions, as in the ktmath `Quaternion` class `(w, x, y, z)`. -/
abbrev Quat := Quaternion ℝ

/-- Shorthand constructor for a complex number from its two components. -/
def mkC (a b : ℝ) : ℂ := ⟨a, b⟩

@[simp] theorem mkC_re (a b : ℝ) : (mkC a b).re = a := rfl

@[simp] theorem mkC_im (a b : ℝ) : (mkC a b).im = b := rfl

/-- Modelled from the spec: a rotation purely about the vertical (Y) axis by
angle `θ`, the quaternion `(cos(θ/2), 0, sin(θ/2), 0)`.  The eight canonical
directions and every stored `mountRotFix` are of this form. -/
def yawQ (θ : ℝ) : Quat := ⟨Real.cos (θ / 2), 0, Real.sin (θ / 2), 0⟩

@[simp] theorem yawQ_re (θ : ℝ) : (yawQ θ).re = Real.cos (θ / 2) := rfl

@[simp] theorem yawQ_imI (θ : ℝ) : (yawQ θ).imI = 0 := rfl

@[simp] theorem yawQ_imJ (θ : ℝ) : (yawQ θ).imJ = Real.sin (θ / 2) := rfl

@[simp] theorem yawQ_imK (θ : ℝ) : (yawQ θ).imK = 0 := rfl

/-- `frontRot` from the test companion object: the quaternion of
`EulerAngles(YZX, HALF_PI, 0f, 0f)` (the conversion itself is library code,
modelled from the spec), i.e. a 90° pitch about the X axis. -/
def frontRot : Quat := ⟨Real.cos (π / 4), Real.sin (π / 4), 0, 0⟩

@[simp] theorem frontRot_re : frontRot.re = Real.cos (π / 4) := rfl

@[simp] theorem frontRot_imI : frontRot.imI = Real.sin (π / 4) := rfl

@[simp] theorem frontRot_imJ : frontRot.imJ = 0 := rfl

@[simp] theorem frontRot_imK : frontRot.imK = 0 := rfl

theorem cos_eq_half (a : ℝ) :
    Real.cos a = Real.cos (a / 2) ^ 2 - Real.sin (a / 2) ^ 2 := by
  have h1 := Real.cos_two_mul (a / 2)
  have h2 := Real.sin_sq_add_cos_sq (a / 2)
  have h3 : 2 * (a / 2) = a := by ring
  rw [h3] at h1
  linarith

theorem sin_eq_half (a : ℝ) :
    Real.sin a = 2 * Real.sin (a / 2) * Real.cos (a / 2) := by
  have h1 := Real.sin_two_mul (a / 2)
  have h3 : 2 * (a / 2) = a := by ring
  rw [h3] at h1
  exact h1

theorem yawQ_zero : yawQ 0 = 1 := by
  apply QuaternionAlgebra.ext <;> simp [yawQ]

theorem star_yawQ (θ : ℝ) : star (yawQ θ) = yawQ (-θ) := by
  apply QuaternionAlgebra.ext <;> simp [yawQ, neg_div]

theorem yawQ_mul_yawQ (a b : ℝ) : yawQ a * yawQ b = yawQ (a + b) := by
  apply QuaternionAlgebra.ext <;>
    simp only [yawQ_re, yawQ_imI, yawQ_imJ, yawQ_imK, Quaternion.mul_re,
      Quaternion.mul_imI, Quaternion.mul_imJ, Quaternion.mul_imK, add_div,
      Real.cos_add, Real.sin_add] <;>
    ring

theorem yawQ_mul_assoc (a b : ℝ) (q : Quat) :
    yawQ a * (yawQ b * q) = yawQ (a + b) * q := by
  rw [← mul_assoc, yawQ_mul_yawQ]

/-- Modelled from the spec: the yaw component of a quaternion under the
Y-then-Z-then-X Euler decomposition is
`atan2 (2(w·y − x·z)) (w² + x² − y² − z²)`; `yawC` packages the two
arguments as a complex number whose `Complex.arg` is that `atan2`. -/
def yawC (q : Quat) : ℂ :=
  mkC (q.re ^ 2 + q.imI ^ 2 - q.imJ ^ 2 - q.imK ^ 2)
    (2 * (q.re * q.imJ - q.imI * q.imK))

/-- `yaw` from `MountingResetTests`: the YZX yaw of a rotation, normalized
into `[0, 2π)` by `posRad`. -/
def yaw (q : Quat) : ℝ := posRad (Complex.arg (yawC q))

/-- Modelled from the spec: the pure-yaw quaternion with the same yaw as
`q` (the "yaw component" used internally by the reset operations). -/
def yawQuatOf (q : Quat) : Quat := yawQ (yaw q)

/-- Modelled from the spec: the azimuth data used by the mounting reset —
the world up vector rotated by `q` has horizontal components
`x = 2(x·y − w·z)` and `z = 2(y·z + w·x)`, and the mounting yaw angle is
`atan2 x z`, i.e. the `Complex.arg` of this complex number. -/
def upAzC (q : Quat) : ℂ :=
  mkC (2 * (q.imJ * q.imK + q.re * q.imI)) (2 * (q.imI * q.imJ - q.re * q.imK))

/-- The yaw angle that the mounting reset extracts from the pose-corrected
orientation, normalized into `[0, 2π)`. -/
def mountYaw (q : Quat) : ℝ := posRad (Complex.arg (upAzC q))

/-- The canonical representative in `[0, 2π)` of an angle `α`. -/
def pang (α : ℝ) : ℝ := posRad (Complex.arg (mkC (Real.cos α) (Real.sin α)))

/-- Modelled from the spec: a reference orientation is valid when it is a
unit quaternion (`InvalidReferenceOrientation` otherwise). -/
def unitQ (q : Quat) : Prop :=
  q.re ^ 2 + q.imI ^ 2 + q.imJ ^ 2 + q.imK ^ 2 = 1

theorem unitQ_one : unitQ 1 := by
  simp [unitQ]

theorem unitQ_yawQ (a : ℝ) : unitQ (yawQ a) := by
  have h := Real.sin_sq_add_cos_sq (a / 2)
  simp only [unitQ, yawQ_re, yawQ_imI, yawQ_imJ, yawQ_imK]
  nlinarith

theorem yawC_yawQ (a : ℝ) : yawC (yawQ a) = mkC (Real.cos a) (Real.sin a) := by
  refine Complex.ext ?_ ?_
  · simp only [yawC, mkC_re, yawQ_re, yawQ_imI, yawQ_imJ, yawQ_imK]
    rw [cos_eq_half a]
    ring
  · simp only [yawC, mkC_im, yawQ_re, yawQ_imI, yawQ_imJ, yawQ_imK]
    rw [sin_eq_half a]
    ring

theorem yawC_one : yawC 1 = 1 := by
  refine Complex.ext ?_ ?_ <;> simp [yawC]

theorem yawC_mul_yawQ (a : ℝ) (q : Quat) :
    yawC (yawQ a * q) = mkC (Real.cos a) (Real.sin a) * yawC q := by
  refine Complex.ext ?_ ?_ <;>
    simp only [yawC, mkC_re, mkC_im, Complex.mul_re, Complex.mul_im,
      Quaternion.mul_re, Quaternion.mul_imI, Quaternion.mul_imJ,
      Quaternion.mul_imK, yawQ_re, yawQ_imI, yawQ_imJ, yawQ_imK,
      cos_eq_half a, sin_eq_half a] <;>
    ring

theorem upAzC_mul_yawQ (a : ℝ) (q : Quat) :
    upAzC (yawQ a * q) = mkC (Real.cos a) (Real.sin a) * upAzC q := by
  refine Complex.ext ?_ ?_ <;>
    simp only [upAzC, mkC_re, mkC_im, Complex.mul_re, Complex.mul_im,
      Quaternion.mul_re, Quaternion.mul_imI, Quaternion.mul_imJ,
      Quaternion.mul_imK, yawQ_re, yawQ_imI, yawQ_imJ, yawQ_imK,
      cos_eq_half a, sin_eq_half a] <;>
    ring

theorem upAzC_frontRot_star_yawQ (b : ℝ) :
    upAzC (frontRot * star (yawQ b)) = 1 := by
  have h1 := Real.sin_sq_add_cos_sq (b / 2)
  have h3 : 2 * Real.sin (π / 4) * Real.cos (π / 4) = 1 := by
    rw [← Real.sin_two_mul, show 2 * (π / 4) = π / 2 by ring, Real.sin_pi_div_two]
  refine Complex.ext ?_ ?_
  · simp only [upAzC, mkC_re, Complex.one_re, Quaternion.mul_re,
      Quaternion.mul_imI, Quaternion.mul_imJ, Quaternion.mul_imK,
      Quaternion.star_re, Quaternion.star_imI, Quaternion.star_imJ,
      Quaternion.star_imK, frontRot_re, frontRot_imI, frontRot_imJ,
      frontRot_imK, yawQ_re, yawQ_imI, yawQ_imJ, yawQ_imK]
    nlinarith
  · simp only [upAzC, mkC_im, Complex.one_im, Quaternion.mul_re,
      Quaternion.mul_imI, Quaternion.mul_imJ, Quaternion.mul_imK,
      Quaternion.star_re, Quaternion.star_imI, Quaternion.star_imJ,
      Quaternion.star_imK, frontRot_re, frontRot_imI, frontRot_imJ,
      frontRot_imK, yawQ_re, yawQ_imI, yawQ_imJ, yawQ_imK]
    ring

theorem mkC_cs_ne_zero (d : ℝ) : mkC (Real.cos d) (Real.sin d) ≠ 0 := by
  intro h
  have h1 : Real.cos d = 0 := congrArg Complex.re h
  have h2 : Real.sin d = 0 := congrArg Complex.im h
  nlinarith [Real.sin_sq_add_cos_sq d]

theorem mkC_eq_add (a b : ℝ) : mkC a b = (a : ℂ) + (b : ℂ) * Complex.I :=
  Complex.mk_eq_add_mul_I a b

theorem mkC_cos_sin (a : ℝ) :
    mkC (Real.cos a) (Real.sin a) = Complex.cos a + Complex.sin a * Complex.I := by
  rw [mkC_eq_add, Complex.ofReal_cos, Complex.ofReal_sin]

theorem arg_mkC_sub (a : ℝ) :
    Complex.arg (mkC (Real.cos a) (Real.sin a)) - a =
      2 * π * ⌊(π - a) / (2 * π)⌋ := by
  rw [mkC_cos_sin]
  exact Complex.arg_cos_add_sin_mul_I_sub a

theorem arg_mkC_coe_angle (a : ℝ) :
    ((Complex.arg (mkC (Real.cos a) (Real.sin a)) : ℝ) : Real.Angle) =
      (a : Real.Angle) := by
  rw [Real.Angle.angle_eq_iff_two_pi_dvd_sub]
  exact ⟨⌊(π - a) / (2 * π)⌋, by have := arg_mkC_sub a; linarith⟩

theorem pang_coe_angle (a : ℝ) : ((pang a : ℝ) : Real.Angle) = (a : Real.Angle) := by
  unfold pang
  rw [posRad_coe_angle, arg_mkC_coe_angle]

theorem pang_nonneg (a : ℝ) : 0 ≤ pang a := posRad_nonneg _

theorem pang_le_two_pi (a : ℝ) : pang a ≤ 2 * π := posRad_le_two_pi _

theorem pang_eq_self {a : ℝ} (h0 : 0 ≤ a) (h1 : a ≤ π) : pang a = a := by
  have hpi := Real.pi_pos
  unfold pang
  rw [mkC_cos_sin, Complex.arg_cos_add_sin_mul_I ⟨by linarith, h1⟩]
  exact posRad_eq_self h0 (by linarith)

theorem pang_zero : pang 0 = 0 := pang_eq_self le_rfl Real.pi_pos.le

theorem yaw_coe_angle (q : Quat) :
    ((yaw q : ℝ) : Real.Angle) = ((Complex.arg (yawC q) : ℝ) : Real.Angle) :=
  posRad_coe_angle _

theorem yaw_nonneg (q : Quat) : 0 ≤ yaw q := posRad_nonneg _

theorem yaw_lt_two_pi (q : Quat) : yaw q < 2 * π := by
  have hpi := Real.pi_pos
  have hmem := Complex.arg_mem_Ioc (yawC q)
  obtain ⟨hlo, hhi⟩ := hmem
  unfold yaw
  rcases le_or_lt 0 (Complex.arg (yawC q)) with h | h
  · exact posRad_lt_two_pi_of_nonneg h
  · rw [posRad_eq_add_of_neg (by linarith) h]
    linarith

theorem yaw_le_two_pi (q : Quat) : yaw q ≤ 2 * π := (yaw_lt_two_pi q).le

theorem yaw_yawQ (a : ℝ) : yaw (yawQ a) = pang a := by
  unfold yaw pang
  rw [yawC_yawQ]

theorem yaw_one : yaw 1 = 0 := by
  unfold yaw
  rw [yawC_one, Complex.arg_one, posRad_zero]

theorem yawQuatOf_one : yawQuatOf 1 = 1 := by
  unfold yawQuatOf
  rw [yaw_one, yawQ_zero]

theorem yawQuatOf_yawQ (a : ℝ) : yawQuatOf (yawQ a) = yawQ (pang a) := by
  unfold yawQuatOf
  rw [yaw_yawQ]

/-- ktmath unit-quaternion division `a / b = a * b⁻¹`; for the unit
quaternions the engine works with, the inverse is the conjugate. -/
def qdiv (a b : Quat) : Quat := a * star b

/-- `trackerRot` as computed by the test: `expected * (frontRot / expected)`,
the raw orientation of a sensor mounted along direction `expected` held in
the canonical (pitched 90° forward) mounting pose. -/
def trackerRot (e : Quat) : Quat := e * qdiv frontRot e

theorem trackerRot_yawQ (e : ℝ) :
    trackerRot (yawQ e) = yawQ e * (frontRot * star (yawQ e)) := rfl

theorem yawQ_mul_trackerRot (a e : ℝ) :
    yawQ a * trackerRot (yawQ e) = yawQ (a + e) * (frontRot * star (yawQ e)) := by
  rw [trackerRot_yawQ, yawQ_mul_assoc]

theorem upAzC_yawQ_mul_trackerRot (a e : ℝ) :
    upAzC (yawQ a * trackerRot (yawQ e)) =
      mkC (Real.cos (a + e)) (Real.sin (a + e)) := by
  rw [yawQ_mul_trackerRot, upAzC_mul_yawQ, upAzC_frontRot_star_yawQ, mul_one]

theorem mountYaw_yawQ_mul_trackerRot (a e : ℝ) :
    mountYaw (yawQ a * trackerRot (yawQ e)) = pang (a + e) := by
  unfold mountYaw pang
  rw [upAzC_yawQ_mul_trackerRot]

theorem mountYaw_trackerRot (e : ℝ) :
    mountYaw (trackerRot (yawQ e)) = pang e := by
  have h := mountYaw_yawQ_mul_trackerRot 0 e
  rw [yawQ_zero, one_mul, zero_add] at h
  exact h

/-- Modelled from the spec: the eight canonical directions are pure-yaw
rotations spaced at 45° increments, `RIGHT` being the 90° one. -/
def dirQ (k : Fin 8) : Quat := yawQ ((k : ℕ) * (π / 4))

/-- Modelled from the spec: the canonical direction `Quaternion.SLIMEVR.RIGHT`,
a 90° yaw rotation. -/
def RIGHT : Quat := yawQ (π / 2)

theorem dirQ_two : dirQ 2 = RIGHT := by
  unfold dirQ RIGHT
  have h : ((2 : Fin 8) : ℕ) = 2 := rfl
  rw [h]
  congr 1
  push_cast
  ring

/-! ## The calibration engine, modelled from the spec -/

/-- Modelled from the spec (§6, §7): the synchronous result of a reset
command — success, or a rejection reason. -/
inductive ResetResult
  | ok
  | noRawOrientationAvailable
  | invalidReferenceOrientation

/-- Modelled from the spec (§3): the per-tracker Calibration State — the
correction quaternions `fullResetFix`, `yawResetFix` and `mountingFix`
(exposed as `mountRotFix`, the name the test reads), the two first-reset
flags, and the most recent raw orientation sample (`none` before any
sample has been received). -/
structure ResetsHandler where
  fullResetFix : Quat
  yawResetFix : Quat
  mountRotFix : Quat
  needsReset : Bool
  needsMounting : Bool
  lastRaw : Option Quat

/-- A freshly created tracker's calibration state: identity corrections,
both `needs` flags set, no raw sample yet. -/
def initialHandler : ResetsHandler :=
  ⟨1, 1, 1, true, true, none⟩

/-- `Tracker.setRotation`: stores a new raw orientation sample; the engine
keeps only the most recent value. -/
def setRotation (r : Quat) (s : ResetsHandler) : ResetsHandler :=
  { s with lastRaw := some r }

/-- Modelled from the spec (§4.2): the corrected output orientation.  The
spec writes `yawResetFix * fullResetFix * R * mountingFix` and explains the
mounting factor as acting "inside, i.e. in the sensor's own frame"; the
change into the sensor's frame is the conjugation
`mountingFix⁻¹ ⬝ (·) ⬝ mountingFix`, and only under this reading do the
effect clauses of §4.3–§4.5 and the §8 composition properties hold
simultaneously, so the corrected output is
`yawResetFix * (mountingFix⁻¹ * (fullResetFix * R) * mountingFix)`. -/
def adjustedRotation (r : Quat) (s : ResetsHandler) : Quat :=
  s.yawResetFix * (star s.mountRotFix * (s.fullResetFix * r) * s.mountRotFix)

/-- `Tracker.getRotation`: the corrected orientation of the most recent raw
sample (identity when no sample has been received yet). -/
def getRotation (s : ResetsHandler) : Quat :=
  match s.lastRaw with
  | none => 1
  | some r => adjustedRotation r s

open Classical

/-- Modelled from the spec (§4.3, §6, §7): `resetFull` recomputes
`fullResetFix` so that the corrected output at the current raw sample
becomes the pure-yaw rotation carrying the reference's yaw
(`fullResetFix := yawQuatOf reference * R_now⁻¹`), resets `yawResetFix` to
identity (a full reset supersedes any yaw-only correction), does not touch
`mountRotFix`, clears `needsReset`; it is rejected with
`NoRawOrientationAvailable`, mutating nothing, when no raw sample was ever
received, and rejects non-unit references (`InvalidReferenceOrientation`)
before mutation. -/
def resetFull (reference : Quat) (s : ResetsHandler) : ResetResult × ResetsHandler :=
  match s.lastRaw with
  | none => (.noRawOrientationAvailable, s)
  | some r =>
    if unitQ reference then
      (.ok, { s with fullResetFix := yawQuatOf reference * star r,
                     yawResetFix := 1,
                     needsReset := false })
    else (.invalidReferenceOrientation, s)

/-- Modelled from the spec (§4.4, §6, §7): `resetYaw` recomputes
`yawResetFix` in isolation — holding `fullResetFix` and `mountRotFix`
fixed — as the pure-yaw rotation that moves the yaw of the currently
corrected pose onto the reference's yaw, so that the corrected output's yaw
immediately equals the reference's yaw; same rejection behaviour as
`resetFull`. -/
def resetYaw (reference : Quat) (s : ResetsHandler) : ResetResult × ResetsHandler :=
  match s.lastRaw with
  | none => (.noRawOrientationAvailable, s)
  | some r =>
    if unitQ reference then
      (.ok, { s with
          yawResetFix := yawQuatOf reference *
            star (yawQuatOf (star s.mountRotFix * (s.fullResetFix * r) * s.mountRotFix)) })
    else (.invalidReferenceOrientation, s)

/-- Modelled from the spec (§4.5, §6, §7, §8): `resetMounting` applies the
currently-active `yawResetFix`/`fullResetFix` to the current raw sample to
cancel the pose-level correction, extracts the mounting yaw of that
pose-corrected reading from the azimuth of the rotated up vector, subtracts
the reference's yaw (the reference is the expected composed offset, so that
the result is invariant under a consistent global offset, §8), stores the
pure-yaw `mountRotFix` with that yaw, and clears `needsMounting`; same
rejection behaviour as `resetFull`. -/
def resetMounting (reference : Quat) (s : ResetsHandler) : ResetResult × ResetsHandler :=
  match s.lastRaw with
  | none => (.noRawOrientationAvailable, s)
  | some r =>
    if unitQ reference then
      (.ok, { s with
          mountRotFix := yawQ (mountYaw (s.yawResetFix * (s.fullResetFix * r)) - yaw reference),
          needsMounting := false })
    else (.invalidReferenceOrientation, s)

theorem resetFull_eval {s : ResetsHandler} {r : Quat} (reference : Quat)
    (h : s.lastRaw = some r) (hu : unitQ reference) :
    resetFull reference s =
      (.ok, { s with fullResetFix := yawQuatOf reference * star r,
                     yawResetFix := 1,
                     needsReset := false }) := by
  simp [resetFull, h, hu]

theorem resetYaw_eval {s : ResetsHandler} {r : Quat} (reference : Quat)
    (h : s.lastRaw = some r) (hu : unitQ reference) :
    resetYaw reference s =
      (.ok, { s with
          yawResetFix := yawQuatOf reference *
            star (yawQuatOf (star s.mountRotFix * (s.fullResetFix * r) * s.mountRotFix)) }) := by
  simp [resetYaw, h, hu]

theorem resetMounting_eval {s : ResetsHandler} {r : Quat} (reference : Quat)
    (h : s.lastRaw = some r) (hu : unitQ reference) :
    resetMounting reference s =
      (.ok, { s with
          mountRotFix := yawQ (mountYaw (s.yawResetFix * (s.fullResetFix * r)) - yaw reference),
          needsMounting := false }) := by
  simp [resetMounting, h, hu]

/-! ## Error handling, frame effects, idempotence, immediate effect -/

/-- C7: a reset of any kind requested before any raw orientation sample has
been received fails with `NoRawOrientationAvailable` and leaves the whole
calibration state unchanged. -/
theorem reset_before_any_sample_rejected (s : ResetsHandler) (reference : Quat)
    (h : s.lastRaw = none) :
    resetFull reference s = (.noRawOrientationAvailable, s) ∧
    resetYaw reference s = (.noRawOrientationAvailable, s) ∧
    resetMounting reference s = (.noRawOrientationAvailable, s) := by
  refine ⟨?_, ?_, ?_⟩ <;> simp [resetFull, resetYaw, resetMounting, h]

theorem reset_before_any_sample_rejected_witness :
    resetFull 1 initialHandler = (.noRawOrientationAvailable, initialHandler) ∧
    resetYaw 1 initialHandler = (.noRawOrientationAvailable, initialHandler) ∧
    resetMounting 1 initialHandler = (.noRawOrientationAvailable, initialHandler) :=
  reset_before_any_sample_rejected initialHandler 1 rfl

/-- C8: a successful `resetFull` sets `yawResetFix` to identity, leaves
`mountRotFix` unchanged, clears `needsReset`, and modifies no field beyond
`fullResetFix`, `yawResetFix` and `needsReset` (in particular
`needsMounting` and the raw sample are untouched). -/
theorem resetFull_effects (s : ResetsHandler) (reference : Quat)
    (h : (resetFull reference s).1 = ResetResult.ok) :
    (resetFull reference s).2.yawResetFix = 1 ∧
    (resetFull reference s).2.mountRotFix = s.mountRotFix ∧
    (resetFull reference s).2.needsReset = false ∧
    (resetFull reference s).2.needsMounting = s.needsMounting ∧
    (resetFull reference s).2.lastRaw = s.lastRaw := by
  cases hr : s.lastRaw with
  | none =>
    exfalso
    unfold resetFull at h
    rw [hr] at h
    simp at h
  | some r =>
    by_cases hu : unitQ reference
    · rw [resetFull_eval reference hr hu]
      exact ⟨rfl, rfl, rfl, rfl, hr⟩
    · exfalso
      unfold resetFull at h
      rw [hr] at h
      simp [hu] at h

theorem resetFull_effects_witness :
    (resetFull 1 (setRotation 1 initialHandler)).2.yawResetFix = 1 ∧
    (resetFull 1 (setRotation 1 initialHandler)).2.mountRotFix =
      (setRotation 1 initialHandler).mountRotFix ∧
    (resetFull 1 (setRotation 1 initialHandler)).2.needsReset = false ∧
    (resetFull 1 (setRotation 1 initialHandler)).2.needsMounting =
      (setRotation 1 initialHandler).needsMounting ∧
    (resetFull 1 (setRotation 1 initialHandler)).2.lastRaw =
      (setRotation 1 initialHandler).lastRaw :=
  resetFull_effects (setRotation 1 initialHandler) 1
    (by rw [resetFull_eval 1 rfl unitQ_one])

/-- C9: invoking `resetFull` twice in a row with the same reference and the
same raw orientation leaves `fullResetFix` unchanged by the second call —
exactly, not merely within floating tolerance. -/
theorem resetFull_idempotent (s : ResetsHandler) (reference r : Quat)
    (h : s.lastRaw = some r) (hu : unitQ reference) :
    ((resetFull reference (resetFull reference s).2).2).fullResetFix =
      ((resetFull reference s).2).fullResetFix := by
  rw [resetFull_eval reference h hu]
  have h2 : ({ s with
      fullResetFix := yawQuatOf reference * star r,
      yawResetFix := 1,
      needsReset := false } : ResetsHandler).lastRaw = some r := h
  rw [resetFull_eval reference h2 hu]

theorem resetFull_idempotent_witness :
    ((resetFull 1 (resetFull 1 (setRotation 1 initialHandler)).2).2).fullResetFix =
      ((resetFull 1 (setRotation 1 initialHandler)).2).fullResetFix :=
  resetFull_idempotent (setRotation 1 initialHandler) 1 1 rfl unitQ_one

/-- C4: immediately after a successful `resetYaw(reference)` — whatever
`fullResetFix` (pitch/roll content included) a prior `resetFull` has
established, whatever the stored mounting fix, and with no new raw sample
in between — the corrected output orientation's yaw equals the reference's
yaw (exactly, hence within tolerance); the only excluded case is the
gimbal-degenerate reading whose yaw data vanishes, which the spec's §7
covers by best-effort degradation. -/
theorem resetYaw_immediate_effect (s : ResetsHandler) (reference r : Quat)
    (h : s.lastRaw = some r) (hu : unitQ reference)
    (hv : yawC (star s.mountRotFix * (s.fullResetFix * r) * s.mountRotFix) ≠ 0) :
    anglesApproxEqual (yaw reference) (yaw (getRotation (resetYaw reference s).2)) := by
  set v := star s.mountRotFix * (s.fullResetFix * r) * s.mountRotFix with hvdef
  have hs' : (resetYaw reference s).2 =
      { s with yawResetFix := yawQuatOf reference * star (yawQuatOf v) } := by
    rw [resetYaw_eval reference h hu]
  have hrot : getRotation (resetYaw reference s).2 =
      (yawQuatOf reference * star (yawQuatOf v)) * v := by
    rw [hs']
    simp only [getRotation, adjustedRotation, h]
  have hY : yawQuatOf reference * star (yawQuatOf v) =
      yawQ (yaw reference - yaw v) := by
    unfold yawQuatOf
    rw [star_yawQ, yawQ_mul_yawQ, sub_eq_add_neg]
  have hyawC : yawC (getRotation (resetYaw reference s).2) =
      mkC (Real.cos (yaw reference - yaw v)) (Real.sin (yaw reference - yaw v)) *
        yawC v := by
    rw [hrot, hY, yawC_mul_yawQ]
  have hangle : ((yaw (getRotation (resetYaw reference s).2) : ℝ) : Real.Angle) =
      ((yaw reference : ℝ) : Real.Angle) := by
    rw [yaw_coe_angle, hyawC, Complex.arg_mul_coe_angle (mkC_cs_ne_zero _) hv,
      arg_mkC_coe_angle, Real.Angle.coe_sub, ← yaw_coe_angle]
    abel
  exact anglesApproxEqual_of_angle_eq (yaw_nonneg _) (yaw_le_two_pi _)
    (yaw_nonneg _) (yaw_le_two_pi _) hangle.symm

theorem resetYaw_immediate_effect_witness :
    anglesApproxEqual (yaw 1)
      (yaw (getRotation (resetYaw 1 (setRotation 1 initialHandler)).2)) :=
  resetYaw_immediate_effect (setRotation 1 initialHandler) 1 1 rfl unitQ_one
    (by
      have h1 : star ((setRotation 1 initialHandler).mountRotFix) *
          (((setRotation 1 initialHandler).fullResetFix) * 1) *
          (setRotation 1 initialHandler).mountRotFix = 1 := by
        simp [setRotation, initialHandler]
      rw [h1, yawC_one]
      exact one_ne_zero)

/-- C6 amended: `posRad` maps every real input into the closed interval
`[0, 2π]`; the value `2π` occurs only at negative integer multiples of
`2π`, every other input (in particular every nonnegative one) lands in
`[0, 2π)`; and the yaw of any quaternion is always in `[0, 2π)`. -/
theorem posRad_and_yaw_range :
    (∀ r : ℝ, 0 ≤ posRad r ∧ posRad r ≤ 2 * π) ∧
    (∀ r : ℝ, 0 ≤ r → posRad r < 2 * π) ∧
    (∀ r : ℝ, (∀ k : ℤ, r ≠ 2 * π * k) → posRad r < 2 * π) ∧
    (∀ q : Quat, 0 ≤ yaw q ∧ yaw q < 2 * π) :=
  ⟨fun r => ⟨posRad_nonneg r, posRad_le_two_pi r⟩,
   fun _ h => posRad_lt_two_pi_of_nonneg h,
   fun _ h => posRad_lt_two_pi_of_ne h,
   fun q => ⟨yaw_nonneg q, yaw_lt_two_pi q⟩⟩

theorem posRad_and_yaw_range_witness :
    posRad 5 < 2 * π ∧ 0 ≤ yaw 1 ∧ yaw 1 < 2 * π :=
  ⟨posRad_and_yaw_range.2.1 5 (by norm_num),
   (posRad_and_yaw_range.2.2.2 1).1,
   (posRad_and_yaw_range.2.2.2 1).2⟩

/-! ## The four reset/mounting sequences of `checkResetMounting` -/

/-- Sequence 1 of `checkResetMounting` (test lines 52–55), from a fresh
tracker: raw := identity; `resetFull(IDENTITY)`; raw := `trackerRot e`;
`resetMounting(IDENTITY)`. -/
def seqA (e : Quat) : ResetsHandler :=
  (resetMounting 1 (setRotation (trackerRot e)
    (resetFull 1 (setRotation 1 initialHandler)).2)).2

/-- Sequence 2 of `checkResetMounting` (test lines 66–72), continuing on
state `s`: raw := identity; `resetFull(m)`; raw := `m * trackerRot e`;
`resetMounting(m * m)`. -/
def seqB (e m : Quat) (s : ResetsHandler) : ResetsHandler :=
  (resetMounting (m * m) (setRotation (m * trackerRot e)
    (resetFull m (setRotation 1 s)).2)).2

/-- Sequence 3 of `checkResetMounting` (test lines 83–87), continuing on
state `s`: raw := identity; `resetFull(m)`; `resetYaw(IDENTITY)`;
raw := `trackerRot e`; `resetMounting(IDENTITY)`. -/
def seqC (e m : Quat) (s : ResetsHandler) : ResetsHandler :=
  (resetMounting 1 (setRotation (trackerRot e)
    (resetYaw 1 (resetFull m (setRotation 1 s)).2).2)).2

/-- Sequence 4 of `checkResetMounting` (test lines 98–105), continuing on
state `s`: raw := identity; `resetFull(IDENTITY)`; `resetYaw(m)`;
raw := `m * trackerRot e`; `resetMounting(m * m)`. -/
def seqD (e m : Quat) (s : ResetsHandler) : ResetsHandler :=
  (resetMounting (m * m) (setRotation (m * trackerRot e)
    (resetYaw m (resetFull 1 (setRotation 1 s)).2).2)).2

theorem seqA_mount (e : ℝ) : (seqA (yawQ e)).mountRotFix = yawQ (pang e) := by
  unfold seqA
  rw [resetFull_eval 1 rfl unitQ_one, resetMounting_eval 1 rfl unitQ_one]
  show yawQ (mountYaw ((1 : Quat) *
    ((yawQuatOf 1 * star 1) * trackerRot (yawQ e))) - yaw 1) = _
  rw [yawQuatOf_one, star_one]
  simp only [one_mul, mul_one]
  rw [mountYaw_trackerRot, yaw_one, sub_zero]

theorem seqB_mount (e m : ℝ) (s : ResetsHandler) :
    (seqB (yawQ e) (yawQ m) s).mountRotFix =
      yawQ (pang (pang m + m + e) - pang (m + m)) := by
  have hu2 : unitQ (yawQ m * yawQ m) := by
    rw [yawQ_mul_yawQ]
    exact unitQ_yawQ _
  unfold seqB
  rw [resetFull_eval (yawQ m) rfl (unitQ_yawQ m),
    resetMounting_eval (yawQ m * yawQ m) rfl hu2]
  show yawQ (mountYaw ((1 : Quat) *
      ((yawQuatOf (yawQ m) * star 1) * (yawQ m * trackerRot (yawQ e)))) -
    yaw (yawQ m * yawQ m)) = _
  rw [yawQuatOf_yawQ, star_one]
  simp only [one_mul, mul_one]
  rw [yawQ_mul_assoc, mountYaw_yawQ_mul_trackerRot, yawQ_mul_yawQ, yaw_yawQ]

set_option maxHeartbeats 2000000 in
theorem seqC_mount (e m t : ℝ) (s : ResetsHandler) (hm : s.mountRotFix = yawQ t) :
    (seqC (yawQ e) (yawQ m) s).mountRotFix =
      yawQ (pang (-pang (-t + pang m + t) + pang m + e)) := by
  unfold seqC
  rw [resetFull_eval (yawQ m) rfl (unitQ_yawQ m), resetYaw_eval 1 rfl unitQ_one,
    resetMounting_eval 1 rfl unitQ_one]
  show yawQ (mountYaw ((yawQuatOf 1 *
      star (yawQuatOf (star s.mountRotFix *
        ((yawQuatOf (yawQ m) * star 1) * 1) * s.mountRotFix))) *
    ((yawQuatOf (yawQ m) * star 1) * trackerRot (yawQ e))) - yaw 1) = _
  rw [hm]
  simp only [yawQuatOf_one, yawQuatOf_yawQ, star_one, star_yawQ, one_mul, mul_one,
    yawQ_mul_yawQ, yawQ_mul_assoc, mountYaw_yawQ_mul_trackerRot, yaw_one, sub_zero]

set_option maxHeartbeats 2000000 in
theorem seqD_mount (e m t : ℝ) (s : ResetsHandler) (hm : s.mountRotFix = yawQ t) :
    (seqD (yawQ e) (yawQ m) s).mountRotFix =
      yawQ (pang (pang m + -pang (-t + t) + m + e) - pang (m + m)) := by
  have hu2 : unitQ (yawQ m * yawQ m) := by
    rw [yawQ_mul_yawQ]
    exact unitQ_yawQ _
  unfold seqD
  rw [resetFull_eval 1 rfl unitQ_one, resetYaw_eval (yawQ m) rfl (unitQ_yawQ m),
    resetMounting_eval (yawQ m * yawQ m) rfl hu2]
  show yawQ (mountYaw ((yawQuatOf (yawQ m) *
      star (yawQuatOf (star s.mountRotFix *
        ((yawQuatOf 1 * star 1) * 1) * s.mountRotFix))) *
    ((yawQuatOf 1 * star 1) * (yawQ m * trackerRot (yawQ e)))) -
    yaw (yawQ m * yawQ m)) = _
  rw [hm]
  simp only [yawQuatOf_one, yawQuatOf_yawQ, star_one, star_yawQ, one_mul, mul_one,
    yawQ_mul_yawQ, yawQ_mul_assoc, mountYaw_yawQ_mul_trackerRot, yaw_yawQ]

/-- The single tracker of `checkResetMounting`, after sequence 1. -/
def chainA (k : Fin 8) : ResetsHandler := seqA (dirQ k)

/-- …after sequence 2 (reference `dirQ m`). -/
def chainB (k m : Fin 8) : ResetsHandler := seqB (dirQ k) (dirQ m) (chainA k)

/-- …after sequence 3. -/
def chainC (k m : Fin 8) : ResetsHandler := seqC (dirQ k) (dirQ m) (chainB k m)

/-- …after sequence 4. -/
def chainD (k m : Fin 8) : ResetsHandler := seqD (dirQ k) (dirQ m) (chainC k m)

theorem anglesApproxEqual_pang {x y : ℝ} (h : (x : Real.Angle) = (y : Real.Angle)) :
    anglesApproxEqual (pang x) (pang y) :=
  anglesApproxEqual_of_angle_eq (pang_nonneg x) (pang_le_two_pi x) (pang_nonneg y)
    (pang_le_two_pi y) (by rw [pang_coe_angle, pang_coe_angle]; exact h)

theorem c1_general (a : ℝ) :
    anglesApproxEqual (yaw (yawQ a)) (yaw ((seqA (yawQ a)).mountRotFix)) := by
  rw [seqA_mount, yaw_yawQ, yaw_yawQ]
  exact anglesApproxEqual_pang (pang_coe_angle a).symm

theorem c3_general (a b : ℝ) :
    anglesApproxEqual (yaw (yawQ a))
      (yaw ((seqB (yawQ a) (yawQ b) (seqA (yawQ a))).mountRotFix)) ∧
    anglesApproxEqual (yaw ((seqA (yawQ a)).mountRotFix))
      (yaw ((seqB (yawQ a) (yawQ b) (seqA (yawQ a))).mountRotFix)) := by
  rw [seqA_mount, seqB_mount, yaw_yawQ, yaw_yawQ, yaw_yawQ]
  constructor
  · exact anglesApproxEqual_pang (by
      simp only [pang_coe_angle, Real.Angle.coe_add, Real.Angle.coe_sub,
        Real.Angle.coe_neg]
      abel)
  · exact anglesApproxEqual_pang (by
      simp only [pang_coe_angle, Real.Angle.coe_add, Real.Angle.coe_sub,
        Real.Angle.coe_neg]
      abel)

theorem c2_general (a b : ℝ) :
    anglesApproxEqual (yaw ((seqA (yawQ a)).mountRotFix))
      (yaw ((seqC (yawQ a) (yawQ b)
        (seqB (yawQ a) (yawQ b) (seqA (yawQ a)))).mountRotFix)) ∧
    anglesApproxEqual
      (yaw ((seqB (yawQ a) (yawQ b) (seqA (yawQ a))).mountRotFix))
      (yaw ((seqD (yawQ a) (yawQ b) (seqC (yawQ a) (yawQ b)
        (seqB (yawQ a) (yawQ b) (seqA (yawQ a))))).mountRotFix)) ∧
    anglesApproxEqual (yaw (yawQ a))
      (yaw ((seqC (yawQ a) (yawQ b)
        (seqB (yawQ a) (yawQ b) (seqA (yawQ a)))).mountRotFix)) ∧
    anglesApproxEqual (yaw (yawQ a))
      (yaw ((seqD (yawQ a) (yawQ b) (seqC (yawQ a) (yawQ b)
        (seqB (yawQ a) (yawQ b) (seqA (yawQ a))))).mountRotFix)) := by
  have hB := seqB_mount a b (seqA (yawQ a))
  have hC := seqC_mount a b _ _ hB
  have hD := seqD_mount a b _ _ hC
  rw [seqA_mount, hB, hC, hD, yaw_yawQ, yaw_yawQ, yaw_yawQ, yaw_yawQ, yaw_yawQ]
  refine ⟨?_, ?_, ?_, ?_⟩ <;>
    exact anglesApproxEqual_pang (by
      simp only [pang_coe_angle, Real.Angle.coe_add, Real.Angle.coe_sub,
        Real.Angle.coe_neg]
      abel)

/-- C1: for every canonical mounting direction `E`, the full-reset-then-
mounting-reset sequence (raw := identity, `resetFull(IDENTITY)`,
raw := `E * frontRot * E⁻¹`, `resetMounting(IDENTITY)`) leaves a
`mountRotFix` whose yaw equals the yaw of `E` modulo 2π within the 1e-3
tolerance; in particular for `E = RIGHT` the resulting mounting yaw is
exactly `π/2` (90°), and is not approximately 0. -/
theorem fullReset_mounting_yaw_property :
    (∀ k : Fin 8,
      anglesApproxEqual (yaw (dirQ k)) (yaw ((chainA k).mountRotFix))) ∧
    yaw ((seqA RIGHT).mountRotFix) = π / 2 ∧
    ¬ anglesApproxEqual (yaw ((seqA RIGHT).mountRotFix)) 0 := by
  have h1 : (0 : ℝ) ≤ π / 2 := by positivity
  have h2 : π / 2 ≤ π := by linarith [Real.pi_pos]
  have hval : yaw ((seqA RIGHT).mountRotFix) = π / 2 := by
    show yaw ((seqA (yawQ (π / 2))).mountRotFix) = π / 2
    rw [seqA_mount, yaw_yawQ, pang_eq_self h1 h2, pang_eq_self h1 h2]
  refine ⟨fun k => c1_general _, hval, ?_⟩
  rw [hval]
  have hpi := Real.pi_gt_three
  rintro (h | h | h) <;>
    unfold isApproxEqual at h <;>
    obtain ⟨ha, hb⟩ := abs_le.1 h <;>
    nlinarith

/-- C2: on the single tracker of `checkResetMounting`, the yaw-reset
sequences 3 and 4 produce the same resulting `mountRotFix` yaw — the yaw of
the mounting direction `E`, within tolerance mod 2π — as the corresponding
full-reset-only sequences 1 and 2, for all 8×8 combinations of mounting
direction and reference direction. -/
theorem yawReset_equivalence_property (k m : Fin 8) :
    anglesApproxEqual (yaw ((chainA k).mountRotFix))
      (yaw ((chainC k m).mountRotFix)) ∧
    anglesApproxEqual (yaw ((chainB k m).mountRotFix))
      (yaw ((chainD k m).mountRotFix)) ∧
    anglesApproxEqual (yaw (dirQ k)) (yaw ((chainC k m).mountRotFix)) ∧
    anglesApproxEqual (yaw (dirQ k)) (yaw ((chainD k m).mountRotFix)) :=
  c2_general (((k : ℕ) : ℝ) * (π / 4)) (((m : ℕ) : ℝ) * (π / 4))

/-- C3: with a non-identity reference `M`, the offset sequence
(`resetFull(M)`, raw := `M * (E * frontRot * E⁻¹)`, `resetMounting(M * M)`)
yields the same resulting `mountRotFix` yaw — the yaw of `E`, within
tolerance mod 2π — as the identity-reference sequence: the mounting
calibration is invariant under a consistent global reference offset. -/
theorem offset_composition_property (k m : Fin 8) (_hm : m ≠ 0) :
    anglesApproxEqual (yaw (dirQ k)) (yaw ((chainB k m).mountRotFix)) ∧
    anglesApproxEqual (yaw ((chainA k).mountRotFix))
      (yaw ((chainB k m).mountRotFix)) :=
  c3_general (((k : ℕ) : ℝ) * (π / 4)) (((m : ℕ) : ℝ) * (π / 4))

theorem offset_composition_property_witness :
    anglesApproxEqual (yaw (dirQ 2)) (yaw ((chainB 2 1).mountRotFix)) ∧
    anglesApproxEqual (yaw ((chainA 2).mountRotFix))
      (yaw ((chainB 2 1).mountRotFix)) :=
  offset_composition_property 2 1 (by decide)

theorem yawReset_equivalence_property_witness :
    anglesApproxEqual (yaw ((chainA 2).mountRotFix))
      (yaw ((chainC 2 1).mountRotFix)) ∧
    anglesApproxEqual (yaw ((chainB 2 1).mountRotFix))
      (yaw ((chainD 2 1).mountRotFix)) ∧
    anglesApproxEqual (yaw (dirQ 2)) (yaw ((chainC 2 1).mountRotFix)) ∧
    anglesApproxEqual (yaw (dirQ 2)) (yaw ((chainD 2 1).mountRotFix)) :=
  yawReset_equivalence_property 2 1

theorem anglesApproxEqual_symm_witness :
    anglesApproxEqual (1 : ℝ) 2 ↔ anglesApproxEqual (2 : ℝ) 1 :=
  anglesApproxEqual_symm 1 2

end
